import Mathlib

/-!
Verification of the section editor and selective-execution engine of the
stata-mcp-server repository (src/index.ts).

Scripts are line-oriented text.  Text is modelled as `List Char` (`Str`),
so that JavaScript's `split('\n')`, `join('\n')`, `startsWith`, slicing and
concatenation become the corresponding list operations.  The file system is
a map from paths to file contents.  The external interpreter process (an
external collaborator) is modelled by a `SpawnOutcome` oracle passed to the
functions that spawn it; nondeterministic timestamps are passed as
parameters.
-/

namespace StataMcp

/-- Text is a list of characters. -/
abbrev Str := List Char

/-- The character list of a string literal. -/
def str (s : String) : Str := s.data

/-- The newline character, the line separator of scripts. -/
def nl : Char := '\n'

/-- File system state: a map from paths to file contents (`none` = the
path holds no file). -/
abbrev FS := Str → Option Str

/-- Reading a file. -/
def fsRead (fs : FS) (p : Str) : Option Str := fs p

/-- Writing a file (create-or-truncate, as Node's `fs.writeFile`). -/
def fsWrite (fs : FS) (p : Str) (c : Str) : FS :=
  fun q => if q = p then some c else fs q

/-- Removing a file from the store. -/
def fsErase (fs : FS) (p : Str) : FS :=
  fun q => if q = p then none else fs q

/-- Node's `fs.unlink`: fails when the file is absent, else removes it. -/
def unlinkE (fs : FS) (p : Str) : Except Unit FS :=
  if (fsRead fs p).isSome then .ok (fsErase fs p) else .error ()

theorem fsRead_fsWrite (fs : FS) (p c q : Str) :
    fsRead (fsWrite fs p c) q = if q = p then some c else fsRead fs q := rfl

theorem fsRead_fsErase (fs : FS) (p q : Str) :
    fsRead (fsErase fs p) q = if q = p then none else fsRead fs q := rfl

/-! ## Section editor (`DoFileEditor.insertSection`, src/index.ts lines 177-210) -/

/-- The six registered section names (`type SectionName`). -/
inductive SectionName where
  | setup | data | preprocessing | descriptive | analysis | output
deriving DecidableEq

/-- Insertion position (`'before' | 'after'`). -/
inductive Position where
  | before | after
deriving DecidableEq

/-- The interpolated name of a section, as it appears in error messages. -/
def sectionNameStr : SectionName → Str
  | .setup => str "setup"
  | .data => str "data"
  | .preprocessing => str "preprocessing"
  | .descriptive => str "descriptive"
  | .analysis => str "analysis"
  | .output => str "output"

/-- Matching of the regex fragment `\*\s*PAT` anywhere in a line: an
asterisk, a (greedy, irrelevant here since `PAT` starts with a non-blank)
run of whitespace, then the literal `PAT`.  JavaScript's `\s` is modelled
by `Char.isWhitespace`. -/
def starWsTest (pat : Str) : Str → Bool
  | [] => false
  | c :: rest =>
    (decide (c = '*') && pat.isPrefixOf (rest.dropWhile Char.isWhitespace))
      || starWsTest pat rest

/-- Substring occurrence, for the bare alternative `전처리` of the
`preprocessing` marker. -/
def substrTest (pat : Str) : Str → Bool
  | [] => pat.isPrefixOf []
  | c :: rest => pat.isPrefixOf (c :: rest) || substrTest pat rest

/-- The marker regexes of `sectionMarkers` (the `i` flag is irrelevant:
the patterns contain no letters with case).  `preprocessing` is
`/\*\s*변수 생성|전처리/`, whose alternation is between the whole
`\*\s*변수 생성` and the bare `전처리`. -/
def markerTest (sec : SectionName) (line : Str) : Bool :=
  match sec with
  | .setup => starWsTest (str "초기 설정") line
  | .data => starWsTest (str "데이터 로드") line
  | .preprocessing => starWsTest (str "변수 생성") line || substrTest (str "전처리") line
  | .descriptive => starWsTest (str "기술통계") line
  | .analysis => starWsTest (str "주요 분석") line
  | .output => starWsTest (str "결과 저장") line

/-- JavaScript `line.startsWith('*')`. -/
def startsWithStar : Str → Bool
  | '*' :: _ => true
  | _ => false

/-- The `position === 'after'` insertion-point loop: starting from
`markerIndex + 1`, advance while within bounds and the line does NOT
start with `'*'` (the source's `!lines[insertIndex].startsWith('*')`).
The resulting index is `markerIndex + 1` plus the length of the leading
run of non-comment lines after the marker. -/
def advanceAfter (lines : List Str) (markerIndex : Nat) : Nat :=
  markerIndex + 1
    + ((lines.drop (markerIndex + 1)).takeWhile (fun l => !startsWithStar l)).length

/-- The insertion index: the marker index for `before`, the index past the
following non-comment run for `after`. -/
def insertIndexFor (lines : List Str) (markerIndex : Nat) : Position → Nat
  | .before => markerIndex
  | .after => advanceAfter lines markerIndex

/-- Core of `DoFileEditor.insertSection`: split into lines, locate the
first marker match, compute the insertion index, splice in
`['', content, '']`, and re-join.  Returns the rewritten text, or the
section-not-found error. -/
def insertSectionText (fileContent : Str) (sectionName : SectionName)
    (content : Str) (position : Position) : Except Str Str :=
  match (fileContent.splitOn nl).findIdx? (markerTest sectionName) with
  | none => .error (str "섹션을 찾을 수 없습니다: " ++ sectionNameStr sectionName)
  | some markerIndex =>
    .ok (List.intercalate [nl]
      ((fileContent.splitOn nl).take
          (insertIndexFor (fileContent.splitOn nl) markerIndex position)
        ++ [[], content, []]
        ++ (fileContent.splitOn nl).drop
          (insertIndexFor (fileContent.splitOn nl) markerIndex position)))

/-! ## Path handling (models of Node's `path` module, a collaborator) -/

/-- POSIX absolute-path test (`path.isAbsolute`). -/
def isAbsolutePath (p : Str) : Bool :=
  match p with
  | '/' :: _ => true
  | _ => false

/-- Model of `path.join` for the two-argument uses in the source. -/
def joinPath (a b : Str) : Str :=
  if a = str "." then b
  else if a = str "/" then str "/" ++ b
  else a ++ str "/" ++ b

/-- The `FileManager.resolvePath` rule: absolute paths pass through,
relative paths are joined onto the workspace root `W`. -/
def resolvePath (W p : Str) : Str :=
  if isAbsolutePath p then p else joinPath W p

/-- Model of `path.basename p`: the final path component. -/
def pathBasename (p : Str) : Str :=
  (p.reverse.takeWhile (fun c => !decide (c = '/'))).reverse

/-- Model of `path.basename p '.do'`: the final component with a trailing
`.do` stripped (unless the whole component is `.do`). -/
def pathBasenameNoDo (p : Str) : Str :=
  if (str ".do").isSuffixOf (pathBasename p) ∧ pathBasename p ≠ str ".do" then
    (pathBasename p).take ((pathBasename p).length - 3)
  else pathBasename p

/-- Model of `path.dirname p`. -/
def pathDirname (p : Str) : Str :=
  match p.reverse.dropWhile (fun c => !decide (c = '/')) with
  | [] => str "."
  | _ :: rest => if rest = [] then str "/" else rest.reverse

/-- The editor operation at the file level: `DoFileEditor.insertSection`
reads the script through the file manager, rewrites it in memory, and
writes it back; on a missing marker it throws before any write. -/
def insertSectionFile (W : Str) (fs : FS) (filePath : Str) (sec : SectionName)
    (content : Str) (pos : Position) : Except Str Unit × FS :=
  match fsRead fs (resolvePath W filePath) with
  | none => (.error (str "ENOENT"), fs)
  | some cur =>
    match insertSectionText cur sec content pos with
    | .error m => (.error m, fs)
    | .ok newText => (.ok (), fsWrite fs (resolvePath W filePath) newText)

/-! ## Helper lemmas on lists -/

theorem findIdx?_some_getElem {α : Type} (p : α → Bool) (l : List α) (i : Nat)
    (h : List.findIdx? p l = some i) : ∃ x, l[i]? = some x ∧ p x = true := by
  induction l generalizing i with
  | nil => simp [List.findIdx?_nil] at h
  | cons a t ih =>
    rw [List.findIdx?_cons] at h
    by_cases hp : p a = true
    · rw [if_pos hp] at h
      injection h with h
      subst h
      exact ⟨a, by simp, hp⟩
    · rw [if_neg hp, List.findIdx?_succ] at h
      cases hfi : List.findIdx? p t with
      | none => rw [hfi] at h; simp at h
      | some j =>
        rw [hfi] at h
        simp only [Option.map_some'] at h
        injection h with h
        subst h
        obtain ⟨x, hx, hpx⟩ := ih j hfi
        exact ⟨x, by simpa using hx, hpx⟩

theorem takeWhile_stop {α : Type} (p : α → Bool) (ls : List α) (x : α)
    (h : ls[(ls.takeWhile p).length]? = some x) : p x = false := by
  induction ls with
  | nil => simp at h
  | cons a t ih =>
    rw [List.takeWhile_cons] at h
    by_cases hp : p a = true
    · rw [if_pos hp] at h
      simp only [List.length_cons, List.getElem?_cons_succ] at h
      exact ih h
    · rw [if_neg hp] at h
      simp only [List.length_nil, List.getElem?_cons_zero, Option.some.injEq] at h
      subst h
      exact Bool.eq_false_iff.mpr hp

theorem prefix_getElem? {α : Type} {l₁ l₂ : List α} (h : l₁ <+: l₂) (i : Nat)
    (hi : i < l₁.length) : l₂[i]? = l₁[i]? := by
  obtain ⟨t, rfl⟩ := h
  rw [List.getElem?_append, if_pos hi]

/-! ## C1: placement of `position = after` insertions -/

/-- Modelled from the spec (claim C1): the spec describes `position =
after` as scanning forward from `index+1` WHILE lines begin with the
comment marker character (skipping the marker's leading comment block),
then inserting.  Compare `advanceAfter`, which scans while lines do NOT
begin with the comment character. -/
def specAfterIndex (lines : List Str) (markerIndex : Nat) : Nat :=
  markerIndex + 1
    + ((lines.drop (markerIndex + 1)).takeWhile (fun l => startsWithStar l)).length

/-- Modelled from the spec (claim C1): insertion behaving as the claim
describes, placing the block after the contiguous comment run that
follows the marker. -/
def specInsertAfter (fileContent : Str) (sectionName : SectionName)
    (content : Str) : Except Str Str :=
  match (fileContent.splitOn nl).findIdx? (markerTest sectionName) with
  | none => .error (str "섹션을 찾을 수 없습니다: " ++ sectionNameStr sectionName)
  | some markerIndex =>
    .ok (List.intercalate [nl]
      ((fileContent.splitOn nl).take (specAfterIndex (fileContent.splitOn nl) markerIndex)
        ++ [[], content, []]
        ++ (fileContent.splitOn nl).drop (specAfterIndex (fileContent.splitOn nl) markerIndex)))

/-- Claim C1 as stated is false: on a script whose marker line is directly
followed by another comment line, the code inserts the block BETWEEN the
marker and that comment line, not after the comment run as the spec
prescribes. -/
theorem c1_counterexample :
    ¬ (insertSectionText (str "* 기술통계\n* tab x\ny") .descriptive (str "C") .after
        = specInsertAfter (str "* 기술통계\n* tab x\ny") .descriptive (str "C")) := by
  intro h
  have h1 : insertSectionText (str "* 기술통계\n* tab x\ny") .descriptive (str "C") .after
      = .ok (str "* 기술통계\n\nC\n\n* tab x\ny") := rfl
  have h2 : specInsertAfter (str "* 기술통계\n* tab x\ny") .descriptive (str "C")
      = .ok (str "* 기술통계\n* tab x\n\nC\n\ny") := rfl
  rw [h1, h2] at h
  injection h with h
  exact absurd h (by decide)

/-- Amended claim C1: with `position = after` the content block is spliced
at the index just past the contiguous run of NON-comment lines following
the marker: every line strictly between the marker and the insertion
point does not begin with `*`, and the insertion point is either the end
of the script or a line beginning with `*`. -/
theorem c1_after_placement (f c : Str) (sec : SectionName) (mi : Nat)
    (hfind : (f.splitOn nl).findIdx? (markerTest sec) = some mi) :
    insertSectionText f sec c .after =
      .ok (List.intercalate [nl]
        ((f.splitOn nl).take (advanceAfter (f.splitOn nl) mi) ++ [[], c, []]
          ++ (f.splitOn nl).drop (advanceAfter (f.splitOn nl) mi)))
    ∧ mi < advanceAfter (f.splitOn nl) mi
    ∧ advanceAfter (f.splitOn nl) mi ≤ (f.splitOn nl).length
    ∧ (∀ k, mi < k → k < advanceAfter (f.splitOn nl) mi →
        ∃ lk, (f.splitOn nl)[k]? = some lk ∧ startsWithStar lk = false)
    ∧ (advanceAfter (f.splitOn nl) mi = (f.splitOn nl).length
        ∨ ∃ lj, (f.splitOn nl)[advanceAfter (f.splitOn nl) mi]? = some lj
            ∧ startsWithStar lj = true) := by
  obtain ⟨xm, hxm, -⟩ := findIdx?_some_getElem _ _ _ hfind
  have hmi : mi < (f.splitOn nl).length := by
    rcases List.getElem?_eq_some.mp hxm with ⟨hlt, -⟩
    exact hlt
  have htwle : ((( f.splitOn nl).drop (mi + 1)).takeWhile (fun l => !startsWithStar l)).length
      ≤ ((f.splitOn nl).drop (mi + 1)).length :=
    (List.takeWhile_prefix _).length_le
  have hdlen : ((f.splitOn nl).drop (mi + 1)).length = (f.splitOn nl).length - (mi + 1) :=
    List.length_drop _ _
  refine ⟨?_, ?_, ?_, ?_, ?_⟩
  · unfold insertSectionText
    rw [hfind]
    rfl
  · unfold advanceAfter
    omega
  · unfold advanceAfter
    omega
  · intro k hk1 hk2
    unfold advanceAfter at hk2
    obtain ⟨d, rfl⟩ : ∃ d, k = mi + 1 + d := ⟨k - (mi + 1), by omega⟩
    have hd : d < ((( f.splitOn nl).drop (mi + 1)).takeWhile (fun l => !startsWithStar l)).length := by
      omega
    have hget : ((f.splitOn nl).drop (mi + 1))[d]?
        = ((( f.splitOn nl).drop (mi + 1)).takeWhile (fun l => !startsWithStar l))[d]? :=
      prefix_getElem? (List.takeWhile_prefix _) d hd
    obtain ⟨lk, hlk⟩ : ∃ lk,
        ((( f.splitOn nl).drop (mi + 1)).takeWhile (fun l => !startsWithStar l))[d]? = some lk := by
      rw [List.getElem?_eq_getElem hd]
      exact ⟨_, rfl⟩
    refine ⟨lk, ?_, ?_⟩
    · rw [← List.getElem?_drop]
      rw [hget]
      exact hlk
    · have hmem : lk ∈ (((f.splitOn nl).drop (mi + 1)).takeWhile (fun l => !startsWithStar l)) := by
        have := List.getElem?_eq_some.mp hlk
        rcases this with ⟨hlt, hEq⟩
        exact hEq ▸ List.getElem_mem _
      have := List.mem_takeWhile_imp hmem
      simpa using this
  · by_cases hend : ((( f.splitOn nl).drop (mi + 1)).takeWhile (fun l => !startsWithStar l)).length
        = ((f.splitOn nl).drop (mi + 1)).length
    · left
      unfold advanceAfter
      omega
    · right
      have hlt : ((( f.splitOn nl).drop (mi + 1)).takeWhile (fun l => !startsWithStar l)).length
          < ((f.splitOn nl).drop (mi + 1)).length := by omega
      obtain ⟨lj, hlj⟩ : ∃ lj, ((f.splitOn nl).drop (mi + 1))[
          ((( f.splitOn nl).drop (mi + 1)).takeWhile (fun l => !startsWithStar l)).length]?
          = some lj := by
        rw [List.getElem?_eq_getElem hlt]
        exact ⟨_, rfl⟩
      refine ⟨lj, ?_, ?_⟩
      · rw [show advanceAfter (f.splitOn nl) mi
            = (mi + 1) + ((( f.splitOn nl).drop (mi + 1)).takeWhile (fun l => !startsWithStar l)).length
          from rfl]
        rw [← List.getElem?_drop]
        exact hlj
      · have := takeWhile_stop (fun l => !startsWithStar l) _ _ hlj
        simpa using this

/-- Witness for the amended claim C1 at a concrete script: the marker
`* 기술통계` is followed by one statement line and then the next comment;
the block lands after the statement, before that comment. -/
theorem c1_witness :
    insertSectionText (str "* 기술통계\ngen x=1\n* 주요 분석") .descriptive
        (str "NEW") .after
      = .ok (str "* 기술통계\ngen x=1\n\nNEW\n\n* 주요 분석") := by
  have h := c1_after_placement (str "* 기술통계\ngen x=1\n* 주요 분석") (str "NEW")
    .descriptive 0 (by rfl)
  exact h.1.trans (by rfl)

/-! ## C5: editing a script whose marker is absent -/

/-- Claim C5: if no line of the script matches the section's marker
pattern, the edit fails with the section-not-found error and the file
system is completely unchanged (no write occurs). -/
theorem c5_marker_absent (W : Str) (fs : FS) (p : Str) (sec : SectionName)
    (c : Str) (pos : Position) (cur : Str)
    (hread : fsRead fs (resolvePath W p) = some cur)
    (habsent : ∀ l ∈ cur.splitOn nl, markerTest sec l = false) :
    insertSectionFile W fs p sec c pos
      = (.error (str "섹션을 찾을 수 없습니다: " ++ sectionNameStr sec), fs) := by
  have hnone : (cur.splitOn nl).findIdx? (markerTest sec) = none :=
    List.findIdx?_eq_none_iff.mpr habsent
  have hins : insertSectionText cur sec c pos
      = .error (str "섹션을 찾을 수 없습니다: " ++ sectionNameStr sec) := by
    unfold insertSectionText
    rw [hnone]
  simp only [insertSectionFile, hread, hins]

/-- Witness for claim C5: a two-line script with no `analysis` marker. -/
theorem c5_witness :
    insertSectionFile (str "/w")
        (fun q => if q = str "/w/a.do" then some (str "clear all\nregress y x") else none)
        (str "a.do") .analysis (str "X") .after
      = (.error (str "섹션을 찾을 수 없습니다: analysis"),
         fun q => if q = str "/w/a.do" then some (str "clear all\nregress y x") else none) := by
  exact c5_marker_absent (str "/w")
    (fun q => if q = str "/w/a.do" then some (str "clear all\nregress y x") else none)
    (str "a.do") .analysis (str "X") .after
    (str "clear all\nregress y x") (by rfl) (by decide)

/-! ## Number rendering (JavaScript template interpolation of numbers) -/

/-- Decimal rendering of a natural number. -/
def natToStr (n : Nat) : Str := Nat.toDigits 10 n

/-- Decimal rendering of an integer, as `${n}` renders a JavaScript
integer-valued number. -/
def intToStr (i : Int) : Str :=
  if i < 0 then '-' :: natToStr i.natAbs else natToStr i.toNat

/-! ## Stata executor (`StataExecutor`, src/index.ts lines 229-402) -/

/-- The result record (`interface StataExecutionResult`). -/
structure StataExecutionResult where
  success : Bool
  output : Str
  logPath : Str

/-- JavaScript's `a || b` on strings: the empty string is falsy. -/
def jsOr (a b : Str) : Str := if a = [] then b else a

/-- JavaScript `s.replace(pat, rep)` with a string pattern: replace the
first occurrence only. -/
def replaceFirst (pat rep : Str) : Str → Str
  | [] => []
  | c :: rest =>
    if pat.isPrefixOf (c :: rest) then rep ++ (c :: rest).drop pat.length
    else c :: replaceFirst pat rep rest

/-- The companion log path: `doFilePath.replace('.do', '.log')`. -/
def logPathOf (doFilePath : Str) : Str :=
  replaceFirst (str ".do") (str ".log") doFilePath

/-- Outcome of spawning the external interpreter (an external
collaborator): either the spawn itself fails (`error` event), or the
process exits with a code, captured stdout/stderr, and optionally a log
file it produced as a side effect. -/
inductive SpawnOutcome where
  | spawnError (msg : Str)
  | exited (code : Int) (stdout stderr : Str) (logProduced : Option Str)

/-- Matching of the setup regex
`/^\s*(clear\s+all|set\s+more\s+off|capture\s+log\s+close)/i`:
`matchCI w r` strips a case-insensitive occurrence of the (lowercase)
word `w` from the front of `r`. -/
def matchCI : List Char → Str → Option Str
  | [], r => some r
  | _ :: _, [] => none
  | d :: ds, c :: r => if c.toLower = d then matchCI ds r else none

/-- The `\s+` separator: at least one whitespace character, consumed
greedily (the following word starts with a letter, so greed is harmless). -/
def gapWS : Str → Option Str
  | [] => none
  | c :: r => if c.isWhitespace then some (r.dropWhile Char.isWhitespace) else none

/-- A sequence of case-insensitive words separated by `\s+`, matched at
the front of `r` (anything may follow the last word). -/
def matchWords : List Str → Str → Bool
  | [], _ => true
  | [w], r => (matchCI w r).isSome
  | w :: w2 :: ws, r =>
    match matchCI w r with
    | none => false
    | some r1 =>
      match gapWS r1 with
      | none => false
      | some r2 => matchWords (w2 :: ws) r2

/-- The `hasSetup` per-line test of `prepareExecutableCode`: the setup
regex, anchored at the start of the line after optional whitespace
(`^\s*`, greedy; harmless since each alternative starts with a letter). -/
def isSetupLine (line : Str) : Bool :=
  matchWords [str "clear", str "all"] (line.dropWhile Char.isWhitespace)
  || matchWords [str "set", str "more", str "off"] (line.dropWhile Char.isWhitespace)
  || matchWords [str "capture", str "log", str "close"] (line.dropWhile Char.isWhitespace)

/-- The provenance header of a synthesized ephemeral script
(`prepareExecutableCode`, template literal), with the creation timestamp
passed in as `now`. -/
def ephemeralHeader (originalFilePath : Str) (startLine endLine : Int) (now : Str) : Str :=
  str "/*******************************************************************************\n* 선택된 라인 실행\n* 원본 파일: "
  ++ originalFilePath
  ++ str "\n* 실행 라인: " ++ intToStr startLine ++ str "-" ++ intToStr endLine
  ++ str "\n* 생성 시간: " ++ now
  ++ str "\n*******************************************************************************/\n\n"

/-- The injected baseline-setup block (`setupCode`). -/
def setupCode : Str :=
  str "* 기본 설정\nset more off\ncapture log close\n\n"

/-- `StataExecutor.prepareExecutableCode`: provenance header, then the
setup block unless some selected line already matches the setup regex,
then each selected line prefixed by an original-line-number comment,
then the completion comment and an `exit` statement. -/
def prepareExecutableCode (selectedLines : List Str) (originalFilePath : Str)
    (startLine endLine : Int) (now : Str) : Str :=
  ephemeralHeader originalFilePath startLine endLine now
  ++ (if selectedLines.any isSetupLine then [] else setupCode)
  ++ List.intercalate [nl]
      (selectedLines.mapIdx (fun idx line =>
        str "* Line " ++ intToStr (startLine + idx) ++ [nl] ++ line))
  ++ str "\n\n* 선택된 라인 실행 완료\nexit\n"

/-- `StataExecutor.executeDoFile`, driven by a `SpawnOutcome` oracle: on
a spawn error the promise rejects; on exit the interpreter may have
produced the companion log file (written into the store), which is then
read back; a readable log yields `success = (code == 0)` with output
precedence log, stdout, stderr; an unreadable log yields a resolved
result with `success = false` and stderr or a read-error message. -/
def executeDoFile (fs : FS) (oc : SpawnOutcome) (doFilePath : Str) :
    Except Str StataExecutionResult × FS :=
  match oc with
  | .spawnError msg => (.error (str "Stata 실행 실패: " ++ msg), fs)
  | .exited code stdout stderr logProduced =>
    let fs1 := match logProduced with
      | some lc => fsWrite fs (logPathOf doFilePath) lc
      | none => fs
    match fsRead fs1 (logPathOf doFilePath) with
    | some logContent =>
      (.ok ⟨decide (code = 0), jsOr logContent (jsOr stdout stderr), logPathOf doFilePath⟩, fs1)
    | none =>
      (.ok ⟨false, jsOr stderr (str "실행 오류: ENOENT"), logPathOf doFilePath⟩, fs1)

/-- The collision-resistant ephemeral script path
(`temp_${basename}_lines_${start}_${end}_${timestamp}.do` in the
directory of the source script). -/
def tempPathOf (filePath : Str) (startLine endLine : Int) (ts : Str) : Str :=
  joinPath (pathDirname filePath)
    (str "temp_" ++ pathBasenameNoDo filePath ++ str "_lines_"
      ++ intToStr startLine ++ str "_" ++ intToStr endLine ++ str "_" ++ ts ++ str ".do")

/-- The `finally` block of `executeSelectedLines`: unlink the ephemeral
script (failure caught and logged, skipping the log cleanup), then
best-effort unlink its log (`.catch(() => ..)`). -/
def cleanupTemp (fs : FS) (tempFilePath : Str) : FS :=
  match unlinkE fs tempFilePath with
  | .error _ => fs
  | .ok fs1 =>
    match unlinkE fs1 (logPathOf tempFilePath) with
    | .error _ => fs1
    | .ok fs2 => fs2

/-- `StataExecutor.executeSelectedLines`: read the source, validate the
1-based inclusive range, slice the selected lines, synthesize and write
the ephemeral script, run it, clean up unconditionally, and wrap the
output with a provenance banner; every thrown error is wrapped in
`선택된 라인 실행 실패: `. -/
def executeSelectedLines (fs : FS) (filePath : Str) (startLine endLine : Int)
    (oc : SpawnOutcome) (ts now : Str) : Except Str StataExecutionResult × FS :=
  match fsRead fs filePath with
  | none => (.error (str "선택된 라인 실행 실패: ENOENT"), fs)
  | some content =>
    if startLine < 1 ∨ endLine < 1 ∨ startLine > (content.splitOn nl).length
        ∨ endLine > (content.splitOn nl).length then
      (.error (str "선택된 라인 실행 실패: 잘못된 라인 번호: " ++ intToStr startLine
        ++ str "-" ++ intToStr endLine ++ str " (파일은 1-"
        ++ natToStr (content.splitOn nl).length ++ str " 라인)"), fs)
    else if startLine > endLine then
      (.error (str "선택된 라인 실행 실패: 시작 라인(" ++ intToStr startLine
        ++ str ")이 끝 라인(" ++ intToStr endLine ++ str ")보다 큽니다"), fs)
    else
      let selectedLines :=
        (((content.splitOn nl).drop (startLine - 1).toNat).take (endLine - startLine + 1).toNat)
      let tempFilePath := tempPathOf filePath startLine endLine ts
      let fs1 := fsWrite fs tempFilePath
        (prepareExecutableCode selectedLines filePath startLine endLine now)
      match executeDoFile fs1 oc tempFilePath with
      | (.ok r, fs2) =>
        (.ok ⟨r.success,
          str "선택된 라인 실행 결과:\n파일: " ++ filePath ++ str "\n라인: "
            ++ intToStr startLine ++ str "-" ++ intToStr endLine ++ str "\n\n" ++ r.output,
          r.logPath⟩,
         cleanupTemp fs2 tempFilePath)
      | (.error m, fs2) =>
        (.error (str "선택된 라인 실행 실패: " ++ m), cleanupTemp fs2 tempFilePath)

/-! ## C3: range extraction -/

/-- The range extraction performed by `executeSelectedLines` (the slice
`lines.slice(startLine - 1, endLine)`), with each line tagged by the
1-based original line number used by `prepareExecutableCode`
(`startLine + index`). -/
def extractRange (lines : List Str) (startLine endLine : Int) : List (Int × Str) :=
  ((lines.drop (startLine - 1).toNat).take (endLine - startLine + 1).toNat).mapIdx
    (fun idx line => ((startLine + idx : Int), line))

/-- Claim C3: for every valid range `1 ≤ start ≤ end ≤ N`, the extraction
has exactly `end - start + 1` entries, and the entry at offset `i` is the
source line at 1-based position `start + i` tagged with that number — so
the extracted lines, in order, are verbatim the corresponding slice of
the source. -/
theorem c3_extract_range (lines : List Str) (s e : Int)
    (h1 : 1 ≤ s) (h2 : s ≤ e) (h3 : e ≤ (lines.length : Int)) :
    ((extractRange lines s e).length : Int) = e - s + 1
    ∧ ∀ i : Nat, (i : Int) < e - s + 1 →
        ∃ l, lines[(s - 1).toNat + i]? = some l
          ∧ (extractRange lines s e)[i]? = some ((s + i : Int), l) := by
  have hlen : ((lines.drop (s - 1).toNat).take (e - s + 1).toNat).length
      = (e - s + 1).toNat := by
    rw [List.length_take, List.length_drop]
    omega
  constructor
  · rw [extractRange, List.length_mapIdx, hlen]
    omega
  · intro i hi
    have hiA : i < ((lines.drop (s - 1).toNat).take (e - s + 1).toNat).length := by
      rw [hlen]
      omega
    obtain ⟨l, hl⟩ : ∃ l, ((lines.drop (s - 1).toNat).take (e - s + 1).toNat)[i]? = some l := by
      rw [List.getElem?_eq_getElem hiA]
      exact ⟨_, rfl⟩
    have hdrop : (lines.drop (s - 1).toNat)[i]? = some l := by
      rw [List.getElem?_take, if_pos (by omega : i < (e - s + 1).toNat)] at hl
      exact hl
    refine ⟨l, ?_, ?_⟩
    · rw [← List.getElem?_drop]
      exact hdrop
    · have hiM : i < (((lines.drop (s - 1).toNat).take (e - s + 1).toNat).mapIdx
          (fun idx line => ((s + idx : Int), line))).length := by
        rw [List.length_mapIdx]
        exact hiA
      rw [extractRange, List.getElem?_eq_getElem hiM]
      have hmap := List.get_mapIdx ((lines.drop (s - 1).toNat).take (e - s + 1).toNat)
        (fun idx line => ((s + idx : Int), line)) i hiA
      have hval : ((lines.drop (s - 1).toNat).take (e - s + 1).toNat).get ⟨i, hiA⟩ = l := by
        have h0 := List.getElem?_eq_getElem hiA
        rw [hl] at h0
        injection h0 with h0
        rw [List.get_eq_getElem]
        exact h0.symm
      show some ((((lines.drop (s - 1).toNat).take (e - s + 1).toNat).mapIdx
          (fun idx line => ((s + idx : Int), line))).get ⟨i, hiM⟩) = some ((s + i : Int), l)
      rw [hmap, hval]

/-- Witness for claim C3: the slice 2..3 of a three-line script. -/
theorem c3_witness :
    ((extractRange [str "a", str "b", str "c"] 2 3).length : Int) = 3 - 2 + 1
    ∧ ∃ l, [str "a", str "b", str "c"][((2 : Int) - 1).toNat + 0]? = some l
        ∧ (extractRange [str "a", str "b", str "c"] 2 3)[0]? = some (((2 : Int) + 0), l) := by
  have h := c3_extract_range [str "a", str "b", str "c"] 2 3
    (by decide) (by decide) (by decide)
  exact ⟨h.1, h.2 0 (by decide)⟩

/-! ## C4: range validation happens before any effect -/

/-- Claim C4: when the requested range violates `1 ≤ start ≤ end ≤ N`
(`start > end`, `start < 1`, or `end > N`), the call fails with one of
the two range-error messages, the file system is untouched (no ephemeral
file is created), and the outcome is independent of the interpreter
oracle (no process is spawned). -/
theorem c4_range_validation (fs : FS) (fp : Str) (s e : Int)
    (oc ocB : SpawnOutcome) (ts now content : Str)
    (hread : fsRead fs fp = some content)
    (hviol : s > e ∨ s < 1 ∨ e > ((content.splitOn nl).length : Int)) :
    ((executeSelectedLines fs fp s e oc ts now).1
        = .error (str "선택된 라인 실행 실패: 잘못된 라인 번호: " ++ intToStr s
          ++ str "-" ++ intToStr e ++ str " (파일은 1-"
          ++ natToStr (content.splitOn nl).length ++ str " 라인)")
      ∨ (executeSelectedLines fs fp s e oc ts now).1
        = .error (str "선택된 라인 실행 실패: 시작 라인(" ++ intToStr s
          ++ str ")이 끝 라인(" ++ intToStr e ++ str ")보다 큽니다"))
    ∧ (executeSelectedLines fs fp s e oc ts now).2 = fs
    ∧ executeSelectedLines fs fp s e oc ts now
        = executeSelectedLines fs fp s e ocB ts now := by
  by_cases hA : s < 1 ∨ e < 1 ∨ s > ((content.splitOn nl).length : Int)
      ∨ e > ((content.splitOn nl).length : Int)
  · refine ⟨?_, ?_, ?_⟩
    · left
      simp only [executeSelectedLines, hread, if_pos hA]
    · simp only [executeSelectedLines, hread, if_pos hA]
    · simp only [executeSelectedLines, hread, if_pos hA]
  · have hB : s > e := by
      rcases hviol with h | h | h
      · exact h
      · exact absurd (Or.inl h) hA
      · exact absurd (Or.inr (Or.inr (Or.inr h))) hA
    refine ⟨?_, ?_, ?_⟩
    · right
      simp only [executeSelectedLines, hread, if_neg hA, if_pos hB]
    · simp only [executeSelectedLines, hread, if_neg hA, if_pos hB]
    · simp only [executeSelectedLines, hread, if_neg hA, if_pos hB]

/-- Witness for claim C4: a two-line script, request 3..2 (start > end,
both of the other violations absent), two different oracles. -/
theorem c4_witness :
    ((executeSelectedLines
        (fun q => if q = str "a.do" then some (str "x\ny") else none)
        (str "a.do") 3 2 (SpawnOutcome.exited 0 [] [] none) (str "T") (str "N")).1
      = .error (str "선택된 라인 실행 실패: 잘못된 라인 번호: 3-2 (파일은 1-2 라인)")
    ∨ (executeSelectedLines
        (fun q => if q = str "a.do" then some (str "x\ny") else none)
        (str "a.do") 3 2 (SpawnOutcome.exited 0 [] [] none) (str "T") (str "N")).1
      = .error (str "선택된 라인 실행 실패: 시작 라인(3)이 끝 라인(2)보다 큽니다")) := by
  have h := c4_range_validation
    (fun q => if q = str "a.do" then some (str "x\ny") else none)
    (str "a.do") 3 2 (SpawnOutcome.exited 0 [] [] none)
    (SpawnOutcome.spawnError (str "m")) (str "T") (str "N") (str "x\ny")
    (by rfl) (by left; decide)
  rcases h.1 with h1 | h1
  · left
    rw [h1]
    rfl
  · right
    rw [h1]
    rfl

/-! ## C2: unconditional cleanup of ephemeral artifacts -/

/-- After the cleanup block runs on a store still holding the ephemeral
script, neither the script nor its derived log file remains. -/
theorem cleanupTemp_clears (fs : FS) (t : Str) (hsome : (fsRead fs t).isSome) :
    fsRead (cleanupTemp fs t) t = none
    ∧ fsRead (cleanupTemp fs t) (logPathOf t) = none := by
  have h1 : unlinkE fs t = .ok (fsErase fs t) := by
    unfold unlinkE
    rw [if_pos hsome]
  unfold cleanupTemp
  rw [h1]
  simp only []
  by_cases hlog : (fsRead (fsErase fs t) (logPathOf t)).isSome
  · have h2 : unlinkE (fsErase fs t) (logPathOf t)
        = .ok (fsErase (fsErase fs t) (logPathOf t)) := by
      unfold unlinkE
      rw [if_pos hlog]
    rw [h2]
    constructor
    · simp [fsRead_fsErase]
    · simp [fsRead_fsErase]
  · have h2 : unlinkE (fsErase fs t) (logPathOf t) = .error () := by
      unfold unlinkE
      rw [if_neg hlog]
    rw [h2]
    constructor
    · simp [fsRead_fsErase]
    · exact Option.not_isSome_iff_eq_none.mp hlog

/-- Claim C2: for a valid request, whatever the interpreter outcome
(normal exit with or without a produced log, or a spawn failure), the
ephemeral script and its derived log file are absent from storage after
the call, and the call raises exactly when the spawn failed — a failed
deletion is never surfaced. -/
theorem c2_ephemeral_cleanup (fs : FS) (fp : Str) (s e : Int)
    (oc : SpawnOutcome) (ts now content : Str)
    (hread : fsRead fs fp = some content)
    (h1 : 1 ≤ s) (h2 : s ≤ e) (h3 : e ≤ ((content.splitOn nl).length : Int)) :
    fsRead (executeSelectedLines fs fp s e oc ts now).2 (tempPathOf fp s e ts) = none
    ∧ fsRead (executeSelectedLines fs fp s e oc ts now).2
        (logPathOf (tempPathOf fp s e ts)) = none
    ∧ ((∃ m, (executeSelectedLines fs fp s e oc ts now).1 = .error m)
        ↔ (∃ msg, oc = .spawnError msg)) := by
  have hA : ¬ (s < 1 ∨ e < 1 ∨ s > ((content.splitOn nl).length : Int)
      ∨ e > ((content.splitOn nl).length : Int)) := by omega
  have hB : ¬ s > e := by omega
  simp only [executeSelectedLines, hread, if_neg hA, if_neg hB]
  cases oc with
  | spawnError msg =>
    simp only [executeDoFile]
    have hc := cleanupTemp_clears
      (fsWrite fs (tempPathOf fp s e ts)
        (prepareExecutableCode
          (((content.splitOn nl).drop (s - 1).toNat).take (e - s + 1).toNat)
          fp s e now))
      (tempPathOf fp s e ts)
      (by rw [fsRead_fsWrite, if_pos rfl]; rfl)
    exact ⟨hc.1, hc.2, by
      constructor
      · intro _
        exact ⟨msg, rfl⟩
      · intro _
        exact ⟨str "선택된 라인 실행 실패: Stata 실행 실패: " ++ msg, rfl⟩⟩
  | exited code so se lg =>
    cases lg with
    | some lc =>
      simp only [executeDoFile, fsRead_fsWrite, if_pos rfl]
      have hc := cleanupTemp_clears
        (fsWrite
          (fsWrite fs (tempPathOf fp s e ts)
            (prepareExecutableCode
              (((content.splitOn nl).drop (s - 1).toNat).take (e - s + 1).toNat)
              fp s e now))
          (logPathOf (tempPathOf fp s e ts)) lc)
        (tempPathOf fp s e ts)
        (by
          rw [fsRead_fsWrite]
          by_cases hq : tempPathOf fp s e ts = logPathOf (tempPathOf fp s e ts)
          · rw [if_pos hq]; rfl
          · rw [if_neg hq, fsRead_fsWrite, if_pos rfl]; rfl)
      refine ⟨hc.1, hc.2, ?_⟩
      constructor
      · intro ⟨m, hm⟩
        exact absurd hm (by simp)
      · intro ⟨msg, hmsg⟩
        exact absurd hmsg (by simp)
    | none =>
      simp only [executeDoFile]
      have hc := cleanupTemp_clears
        (fsWrite fs (tempPathOf fp s e ts)
          (prepareExecutableCode
            (((content.splitOn nl).drop (s - 1).toNat).take (e - s + 1).toNat)
            fp s e now))
        (tempPathOf fp s e ts)
        (by rw [fsRead_fsWrite, if_pos rfl]; rfl)
      cases hfl : fsRead
          (fsWrite fs (tempPathOf fp s e ts)
            (prepareExecutableCode
              (((content.splitOn nl).drop (s - 1).toNat).take (e - s + 1).toNat)
              fp s e now))
          (logPathOf (tempPathOf fp s e ts)) with
      | some logContent =>
        simp only [hfl]
        refine ⟨hc.1, hc.2, ?_⟩
        constructor
        · intro ⟨m, hm⟩
          exact absurd hm (by simp)
        · intro ⟨msg, hmsg⟩
          exact absurd hmsg (by simp)
      | none =>
        simp only [hfl]
        refine ⟨hc.1, hc.2, ?_⟩
        constructor
        · intro ⟨m, hm⟩
          exact absurd hm (by simp)
        · intro ⟨msg, hmsg⟩
          exact absurd hmsg (by simp)

/-! ## C6: the setup block is omitted exactly when a setup line is present -/

/-- Modelled from the claim (C6): a case-insensitive rendering of a word
(the word is given in lowercase). -/
def LowerIs (w : List Char) (a : Str) : Prop := a.map Char.toLower = w

/-- A string consisting of whitespace only. -/
def AllWS (g : Str) : Prop := ∀ c ∈ g, c.isWhitespace = true

/-- Modelled from the claim (C6): a sequence of case-insensitive words
separated by non-empty whitespace runs, matched at the start of `r`,
with arbitrary text allowed after the last word. -/
def WordsMatchSpec : List Str → Str → Prop
  | [], _ => True
  | [w], r => ∃ a t, r = a ++ t ∧ LowerIs w a
  | w :: w2 :: ws, r =>
    ∃ a g t, r = a ++ g ++ t ∧ LowerIs w a ∧ AllWS g ∧ g ≠ []
      ∧ WordsMatchSpec (w2 :: ws) t

/-- Modelled from the claim (C6): a line matching one of the recognized
setup-statement patterns — case-insensitive, anchored at line start,
allowing leading whitespace. -/
def SpecSetupLine (l : Str) : Prop :=
  ∃ w r, l = w ++ r ∧ AllWS w
    ∧ (WordsMatchSpec [str "clear", str "all"] r
      ∨ WordsMatchSpec [str "set", str "more", str "off"] r
      ∨ WordsMatchSpec [str "capture", str "log", str "close"] r)

theorem matchCI_some (w : List Char) (r t : Str) (h : matchCI w r = some t) :
    ∃ a, r = a ++ t ∧ a.map Char.toLower = w := by
  induction w generalizing r with
  | nil =>
    unfold matchCI at h
    injection h with h
    exact ⟨[], by simpa using h, rfl⟩
  | cons d ds ih =>
    cases r with
    | nil => exact absurd h (by unfold matchCI; simp)
    | cons c r0 =>
      unfold matchCI at h
      by_cases hc : c.toLower = d
      · rw [if_pos hc] at h
        obtain ⟨a, rfl, ha⟩ := ih r0 h
        exact ⟨c :: a, rfl, by rw [List.map_cons, ha, hc]⟩
      · rw [if_neg hc] at h
        exact absurd h (by simp)

theorem matchCI_append (w : List Char) (a t : Str) (ha : a.map Char.toLower = w) :
    matchCI w (a ++ t) = some t := by
  induction a generalizing w with
  | nil =>
    rw [← ha]
    rfl
  | cons c a0 ih =>
    rw [← ha]
    show matchCI (c.toLower :: a0.map Char.toLower) (c :: (a0 ++ t)) = some t
    unfold matchCI
    rw [if_pos rfl]
    exact ih _ rfl

theorem gapWS_some (r t : Str) (h : gapWS r = some t) :
    ∃ g, r = g ++ t ∧ AllWS g ∧ g ≠ [] := by
  cases r with
  | nil => exact absurd h (by unfold gapWS; simp)
  | cons c r0 =>
    unfold gapWS at h
    simp only [] at h
    by_cases hc : c.isWhitespace = true
    · rw [if_pos hc] at h
      injection h with h
      refine ⟨c :: r0.takeWhile Char.isWhitespace, ?_, ?_, by simp⟩
      · rw [List.cons_append, ← h, List.takeWhile_append_dropWhile]
      · intro x hx
        rcases List.mem_cons.mp hx with rfl | hx
        · exact hc
        · exact List.mem_takeWhile_imp hx
    · rw [if_neg hc] at h
      exact absurd h (by simp)

theorem dropWhile_all_append (p : Char → Bool) (g rest : Str)
    (hg : ∀ c ∈ g, p c = true)
    (hr : rest = [] ∨ ∃ c t, rest = c :: t ∧ p c = false) :
    (g ++ rest).dropWhile p = rest := by
  induction g with
  | nil =>
    rcases hr with rfl | ⟨c, t, rfl, hc⟩
    · rfl
    · rw [List.nil_append, List.dropWhile_cons, if_neg (by rw [hc]; simp)]
  | cons c g0 ih =>
    rw [List.cons_append, List.dropWhile_cons, if_pos (hg c (List.mem_cons_self c g0))]
    exact ih (fun x hx => hg x (List.mem_cons_of_mem c hx))

theorem gapWS_append (g t : Str) (hg : AllWS g) (hne : g ≠ [])
    (ht : ∃ c t0, t = c :: t0 ∧ c.isWhitespace = false) :
    gapWS (g ++ t) = some t := by
  cases g with
  | nil => exact absurd rfl hne
  | cons c g0 =>
    rw [List.cons_append]
    unfold gapWS
    simp only []
    rw [if_pos (hg c (List.mem_cons_self c g0))]
    rw [dropWhile_all_append Char.isWhitespace g0 t
      (fun x hx => hg x (List.mem_cons_of_mem c hx)) (Or.inr ht)]

theorem ws_toLower_fixed (c : Char) (h : c.isWhitespace = true) : c.toLower = c := by
  simp [Char.isWhitespace] at h
  rcases h with ((rfl | rfl) | rfl) | rfl <;> decide

theorem head_not_ws (c d : Char) (hd : c.toLower = d) (hwd : d.isWhitespace = false) :
    c.isWhitespace = false := by
  cases hcc : c.isWhitespace
  · rfl
  · exfalso
    have hfix := ws_toLower_fixed c hcc
    rw [hd] at hfix
    rw [← hfix] at hcc
    rw [hwd] at hcc
    exact absurd hcc (by simp)

/-- A word sequence matched per the spec starts with a non-whitespace
character (the first letter of its first word, case-folded). -/
theorem spec_head_not_ws (w : Str) (rest : List Str) (t : Str)
    (hspec : WordsMatchSpec (w :: rest) t)
    (hw : w ≠ [] ∧ (w.headD 'a').isWhitespace = false) :
    ∃ c t0, t = c :: t0 ∧ c.isWhitespace = false := by
  obtain ⟨hne, hhead⟩ := hw
  cases rest with
  | nil =>
    obtain ⟨a, t2, rfl, la⟩ := hspec
    cases a with
    | nil =>
      exfalso
      apply hne
      rw [← la]
      rfl
    | cons c a0 =>
      refine ⟨c, a0 ++ t2, rfl, ?_⟩
      have hc : c.toLower = w.headD 'a' := by
        rw [← la]
        rfl
      exact head_not_ws c (w.headD 'a') hc hhead
  | cons w2 rest2 =>
    obtain ⟨a, g, t2, rfl, la, -, -, -⟩ := hspec
    cases a with
    | nil =>
      exfalso
      apply hne
      rw [← la]
      rfl
    | cons c a0 =>
      refine ⟨c, a0 ++ g ++ t2, ?_, ?_⟩
      · simp [List.append_assoc]
      · have hc : c.toLower = w.headD 'a' := by
          rw [← la]
          rfl
        exact head_not_ws c (w.headD 'a') hc hhead

/-- The executable word-sequence matcher coincides with the spec's
description, for word lists made of non-empty lowercase words starting
with a non-whitespace letter. -/
theorem matchWords_iff_spec (wordList : List Str)
    (hw : ∀ w ∈ wordList, w ≠ [] ∧ (w.headD 'a').isWhitespace = false) :
    ∀ r, matchWords wordList r = true ↔ WordsMatchSpec wordList r := by
  induction wordList with
  | nil =>
    intro r
    constructor
    · intro _
      trivial
    · intro _
      rfl
  | cons w rest ih =>
    intro r
    cases rest with
    | nil =>
      constructor
      · intro h
        cases hm : matchCI w r with
        | none =>
          exfalso
          have : matchWords [w] r = (matchCI w r).isSome := rfl
          rw [this, hm] at h
          exact absurd h (by simp)
        | some t =>
          obtain ⟨a, rfl, ha⟩ := matchCI_some w r t hm
          exact ⟨a, t, rfl, ha⟩
      · rintro ⟨a, t, rfl, la⟩
        show (matchCI w (a ++ t)).isSome = true
        rw [matchCI_append w a t la]
        rfl
    | cons w2 rest2 =>
      have ihtail := ih (fun x hx => hw x (List.mem_cons_of_mem w hx))
      have hdef : ∀ rr, matchWords (w :: w2 :: rest2) rr
          = (match matchCI w rr with
            | none => false
            | some r1 =>
              match gapWS r1 with
              | none => false
              | some r2 => matchWords (w2 :: rest2) r2) := fun _ => rfl
      constructor
      · intro h
        rw [hdef r] at h
        cases hm : matchCI w r with
        | none =>
          rw [hm] at h
          exact absurd h (by simp)
        | some r1 =>
          rw [hm] at h
          simp only [] at h
          cases hg : gapWS r1 with
          | none =>
            rw [hg] at h
            exact absurd h (by simp)
          | some r2 =>
            rw [hg] at h
            simp only [] at h
            obtain ⟨a, rfl, la⟩ := matchCI_some w r r1 hm
            obtain ⟨g, rfl, hgall, hgne⟩ := gapWS_some r1 r2 hg
            exact ⟨a, g, r2, by simp [List.append_assoc], la, hgall, hgne,
              (ihtail r2).mp h⟩
      · rintro ⟨a, g, t, rfl, la, hgall, hgne, hspec⟩
        rw [hdef (a ++ g ++ t)]
        have hm : matchCI w (a ++ g ++ t) = some (g ++ t) := by
          rw [List.append_assoc]
          exact matchCI_append w a (g ++ t) la
        rw [hm]
        simp only []
        have hg : gapWS (g ++ t) = some t :=
          gapWS_append g t hgall hgne
            (spec_head_not_ws w2 rest2 t hspec (hw w2 (by simp)))
        rw [hg]
        simp only []
        exact (ihtail t).mpr hspec

/-- The per-line executable setup matcher coincides with the claim's
description of a recognized setup-statement line. -/
theorem isSetupLine_iff_spec (l : Str) : isSetupLine l = true ↔ SpecSetupLine l := by
  have hw1 : ∀ w ∈ [str "clear", str "all"], w ≠ [] ∧ (w.headD 'a').isWhitespace = false := by
    decide
  have hw2 : ∀ w ∈ [str "set", str "more", str "off"],
      w ≠ [] ∧ (w.headD 'a').isWhitespace = false := by
    decide
  have hw3 : ∀ w ∈ [str "capture", str "log", str "close"],
      w ≠ [] ∧ (w.headD 'a').isWhitespace = false := by
    decide
  constructor
  · intro h
    have hsplit : l = l.takeWhile Char.isWhitespace ++ l.dropWhile Char.isWhitespace :=
      (List.takeWhile_append_dropWhile _ _).symm
    have hws : AllWS (l.takeWhile Char.isWhitespace) := fun c hc =>
      List.mem_takeWhile_imp hc
    unfold isSetupLine at h
    rcases Bool.or_eq_true_iff.mp h with h | h
    · rcases Bool.or_eq_true_iff.mp h with h | h
      · exact ⟨_, _, hsplit, hws,
          Or.inl ((matchWords_iff_spec _ hw1 _).mp h)⟩
      · exact ⟨_, _, hsplit, hws,
          Or.inr (Or.inl ((matchWords_iff_spec _ hw2 _).mp h))⟩
    · exact ⟨_, _, hsplit, hws,
        Or.inr (Or.inr ((matchWords_iff_spec _ hw3 _).mp h))⟩
  · rintro ⟨w, r, rfl, hwAll, hdisj⟩
    have hdrop : (w ++ r).dropWhile Char.isWhitespace = r := by
      apply dropWhile_all_append Char.isWhitespace w r hwAll
      rcases hdisj with h | h | h
      · obtain ⟨c, t0, rfl, hc⟩ := spec_head_not_ws _ _ _ h (hw1 _ (by simp))
        exact Or.inr ⟨c, t0, rfl, hc⟩
      · obtain ⟨c, t0, rfl, hc⟩ := spec_head_not_ws _ _ _ h (hw2 _ (by simp))
        exact Or.inr ⟨c, t0, rfl, hc⟩
      · obtain ⟨c, t0, rfl, hc⟩ := spec_head_not_ws _ _ _ h (hw3 _ (by simp))
        exact Or.inr ⟨c, t0, rfl, hc⟩
    unfold isSetupLine
    rw [hdrop]
    rcases hdisj with h | h | h
    · rw [(matchWords_iff_spec _ hw1 _).mpr h]
      rfl
    · rw [(matchWords_iff_spec _ hw2 _).mpr h]
      simp
    · rw [(matchWords_iff_spec _ hw3 _).mpr h]
      simp

/-- Modelled from the claim (C6): the synthesized ephemeral script with
the baseline-setup block omitted. -/
def prepareNoSetup (selectedLines : List Str) (originalFilePath : Str)
    (startLine endLine : Int) (now : Str) : Str :=
  ephemeralHeader originalFilePath startLine endLine now
  ++ List.intercalate [nl]
      (selectedLines.mapIdx (fun idx line =>
        str "* Line " ++ intToStr (startLine + idx) ++ [nl] ++ line))
  ++ str "\n\n* 선택된 라인 실행 완료\nexit\n"

/-- Claim C6: the synthesized script omits the injected baseline-setup
block exactly when some extracted line matches one of the recognized
setup-statement patterns (case-insensitive, anchored at line start after
optional whitespace). -/
theorem c6_setup_injection (sel : List Str) (p : Str) (s e : Int) (now : Str) :
    (∃ l ∈ sel, SpecSetupLine l)
      ↔ prepareExecutableCode sel p s e now = prepareNoSetup sel p s e now := by
  constructor
  · rintro ⟨l, hl, hspec⟩
    have hany : sel.any isSetupLine = true :=
      List.any_eq_true.mpr ⟨l, hl, (isSetupLine_iff_spec l).mpr hspec⟩
    unfold prepareExecutableCode prepareNoSetup
    rw [hany]
    simp
  · intro heq
    by_contra hno
    have hnone : ∀ l ∈ sel, isSetupLine l = false := by
      intro l hl
      cases hb : isSetupLine l
      · rfl
      · exact absurd ⟨l, hl, (isSetupLine_iff_spec l).mp hb⟩ hno
    have hany : sel.any isSetupLine = false := by
      rw [List.any_eq_false]
      intro l hl
      rw [hnone l hl]
      simp
    have hlen : (prepareExecutableCode sel p s e now).length
        = (prepareNoSetup sel p s e now).length := by
      rw [heq]
    unfold prepareExecutableCode prepareNoSetup at hlen
    rw [hany] at hlen
    have hsc : (0 : Nat) < setupCode.length := by decide
    simp only [Bool.false_eq_true, if_false, List.length_append] at hlen
    omega

/-! ## C7: the termination statement is appended unconditionally -/

theorem intercalate_cons_cons (x y : Str) (xs : List Str) :
    List.intercalate [nl] (x :: y :: xs) = x ++ [nl] ++ List.intercalate [nl] (y :: xs) := by
  simp [List.intercalate, List.intersperse_cons_cons]

theorem intercalate_singleton (y : Str) : List.intercalate [nl] [y] = y := by
  simp [List.intercalate, List.intersperse]

/-- The joined, line-number-commented block ends with the text of the
last selected line. -/
theorem intercalate_mapIdx_last (g : Nat → Str) (sel : List Str) (lastLine : Str)
    (h : sel.getLast? = some lastLine) :
    ∃ q, List.intercalate [nl] (sel.mapIdx (fun idx line => g idx ++ line))
      = q ++ lastLine := by
  obtain ⟨ys, rfl⟩ := List.getLast?_eq_some_iff.mp h
  rw [List.mapIdx_append_one]
  generalize List.mapIdx (fun idx line => g idx ++ line) ys = zs
  induction zs with
  | nil =>
    refine ⟨g ys.length, ?_⟩
    rw [List.nil_append, intercalate_singleton]
  | cons z zt ih =>
    obtain ⟨q, hq⟩ := ih
    cases zt with
    | nil =>
      refine ⟨z ++ [nl] ++ g ys.length, ?_⟩
      rw [List.cons_append, List.nil_append, intercalate_cons_cons, intercalate_singleton]
      simp [List.append_assoc]
    | cons w ws =>
      refine ⟨z ++ [nl] ++ q, ?_⟩
      rw [List.cons_append, List.cons_append, intercalate_cons_cons]
      rw [List.cons_append] at hq
      rw [hq]
      simp [List.append_assoc]

/-- Claim C7: the synthesized ephemeral script always ends with the
appended completion comment and `exit` statement, and when the selection
itself already ends with an `exit` line the synthesized text carries that
line AND the appended terminator (a second `exit`). -/
theorem c7_exit_always_appended (sel : List Str) (p : Str) (s e : Int) (now : Str) :
    (∃ pre, prepareExecutableCode sel p s e now
        = pre ++ str "\n\n* 선택된 라인 실행 완료\nexit\n")
    ∧ (sel.getLast? = some (str "exit") →
      ∃ q, prepareExecutableCode sel p s e now
        = q ++ str "exit\n\n* 선택된 라인 실행 완료\nexit\n") := by
  constructor
  · exact ⟨_, rfl⟩
  · intro h
    obtain ⟨q, hq⟩ := intercalate_mapIdx_last
      (fun idx => str "* Line " ++ intToStr (s + idx) ++ [nl]) sel (str "exit") h
    refine ⟨ephemeralHeader p s e now
      ++ (if sel.any isSetupLine then [] else setupCode) ++ q, ?_⟩
    have hsplit : str "exit\n\n* 선택된 라인 실행 완료\nexit\n"
        = str "exit" ++ str "\n\n* 선택된 라인 실행 완료\nexit\n" := by decide
    rw [hsplit]
    unfold prepareExecutableCode
    rw [hq]
    simp [List.append_assoc]

/-- Witness for claim C7: a selection consisting of the single line
`exit` still receives the appended terminator. -/
theorem c7_witness :
    ∃ q, prepareExecutableCode [str "exit"] (str "a.do") 1 1 (str "N")
      = q ++ str "exit\n\n* 선택된 라인 실행 완료\nexit\n" := by
  exact (c7_exit_always_appended [str "exit"] (str "a.do") 1 1 (str "N")).2 (by rfl)

/-! ## C8 and C9: exit-code semantics and output precedence of a run -/

/-- Claim C8: a completed interpreter run (the `close` event) always
resolves to a normal result, never an exception; when the run produced
its companion log file (the interpreter contract assumed by the spec),
the success flag is true exactly when the exit code is 0; only a spawn
failure (the `error` event) is surfaced as a distinct fatal error. -/
theorem c8_exit_code_semantics :
    (∀ (fs : FS) (p : Str) (code : Int) (so se : Str) (lg : Option Str),
      ∃ r, (executeDoFile fs (.exited code so se lg) p).1 = .ok r)
    ∧ (∀ (fs : FS) (p : Str) (code : Int) (so se lc : Str),
      ∃ r, (executeDoFile fs (.exited code so se (some lc)) p).1 = .ok r
        ∧ (r.success = true ↔ code = 0))
    ∧ (∀ (fs : FS) (p : Str) (msg : Str),
      ∃ m, (executeDoFile fs (.spawnError msg) p).1 = .error m) := by
  refine ⟨?_, ?_, ?_⟩
  · intro fs p code so se lg
    cases lg with
    | some lc =>
      simp only [executeDoFile, fsRead_fsWrite, if_pos rfl]
      exact ⟨_, rfl⟩
    | none =>
      cases hfl : fsRead fs (logPathOf p) with
      | some logContent =>
        simp only [executeDoFile, hfl]
        exact ⟨_, rfl⟩
      | none =>
        simp only [executeDoFile, hfl]
        exact ⟨_, rfl⟩
  · intro fs p code so se lc
    simp only [executeDoFile, fsRead_fsWrite, if_pos rfl]
    exact ⟨_, rfl, by simp⟩
  · intro fs p msg
    exact ⟨_, rfl⟩

/-- Claim C9: when a completed run produced its companion log file, the
result's output is the log content if non-empty, else the captured
standard output, else the captured standard error. -/
theorem c9_output_precedence (fs : FS) (p : Str) (code : Int) (so se lc : Str) :
    ∃ r, (executeDoFile fs (.exited code so se (some lc)) p).1 = .ok r
      ∧ r.output = (if lc = [] then (if so = [] then se else so) else lc) := by
  simp only [executeDoFile, fsRead_fsWrite, if_pos rfl]
  exact ⟨_, rfl, rfl⟩

/-- Witness for claim C2: a two-line script, range 1..2, interpreter
exits 0 and produces a log. -/
theorem c2_witness :
    fsRead ((executeSelectedLines
        (fun q => if q = str "a.do" then some (str "x\ny") else none)
        (str "a.do") 1 2 (SpawnOutcome.exited 0 [] [] (some (str "LOG")))
        (str "T") (str "N")).2)
      (tempPathOf (str "a.do") 1 2 (str "T")) = none := by
  exact (c2_ephemeral_cleanup
    (fun q => if q = str "a.do" then some (str "x\ny") else none)
    (str "a.do") 1 2 (SpawnOutcome.exited 0 [] [] (some (str "LOG")))
    (str "T") (str "N") (str "x\ny")
    (by rfl) (by decide) (by decide) (by decide)).1

/-! ## C10: the `edit_do_file` tool handler -/

/-- The `params` object of an `edit_do_file` call (`interface EditParams`);
the source's `section` field is called `sectionName` here (`section` is a
reserved word in Lean). -/
structure EditParams where
  name : Option Str := none
  definition : Option Str := none
  label : Option Str := none
  type : Option Str := none
  specification : Option Str := none
  sectionName : Option Str := none
  content : Option Str := none
  position : Option Position := none

/-- The cast `params.section as SectionName`: marker lookup fails for a
string outside the six registered names (`if (!marker) throw`). -/
def parseSection (s : Str) : Option SectionName :=
  if s = str "setup" then some .setup
  else if s = str "data" then some .data
  else if s = str "preprocessing" then some .preprocessing
  else if s = str "descriptive" then some .descriptive
  else if s = str "analysis" then some .analysis
  else if s = str "output" then some .output
  else none

/-- The backup path of `FileManager.createBackup`:
`{workspace}/.stata-backups/{basename}.{timestamp}.bak`. -/
def backupPathOf (W p ts : Str) : Str :=
  joinPath (joinPath W (str ".stata-backups"))
    (pathBasename (resolvePath W p) ++ str "." ++ ts ++ str ".bak")

/-- The block built by `DoFileEditor.addVariable`. -/
def addVariableCode (nm df : Str) (lb : Option Str) : Str :=
  str "* 변수 생성: " ++ nm ++ [nl] ++ df ++ [nl]
    ++ (match lb with
      | some l => str "label variable " ++ nm ++ str " \"" ++ l ++ str "\""
      | none => [])

/-- The block built by `DoFileEditor.addAnalysis`. -/
def addAnalysisCode (ty sp : Str) : Str :=
  str "* " ++ ty ++ str " 분석" ++ [nl] ++ sp

/-- The switch body of the `edit_do_file` case: the recognized operations
delegate to the editor (add_variable → preprocessing, add_analysis →
analysis, insert_section → the given section), an unrecognized operation
falls through the switch and edits nothing. -/
def editStep (W : Str) (fs1 : FS) (filePath : Str) (operation : Str)
    (params : EditParams) : Except Str FS :=
  if operation = str "add_variable" then
    match params.name, params.definition with
    | some nm, some df =>
      match insertSectionFile W fs1 filePath .preprocessing
          (addVariableCode nm df params.label) .after with
      | (.error m, _) => .error m
      | (.ok _, fs2) => .ok fs2
    | _, _ => .error (str "변수명과 정의가 필요합니다")
  else if operation = str "add_analysis" then
    match params.type, params.specification with
    | some ty, some sp =>
      match insertSectionFile W fs1 filePath .analysis (addAnalysisCode ty sp) .after with
      | (.error m, _) => .error m
      | (.ok _, fs2) => .ok fs2
    | _, _ => .error (str "분석 유형과 명세가 필요합니다")
  else if operation = str "insert_section" then
    match params.sectionName, params.content with
    | some sn, some ct =>
      match parseSection sn with
      | none => .error (str "알 수 없는 섹션: " ++ sn)
      | some sec =>
        match insertSectionFile W fs1 filePath sec ct
            (match params.position with
              | some pos => pos
              | none => .after) with
        | (.error m, _) => .error m
        | (.ok _, fs2) => .ok fs2
    | _, _ => .error (str "섹션명과 내용이 필요합니다")
  else .ok fs1

/-- The `case 'edit_do_file'` handler (with `file_path`, `operation` and
`params` present): back up the target, run the switch, re-read the file,
and answer with the modified-file confirmation; any thrown error becomes
an `오류 발생: ` text response (the backup, once written, persists). -/
def editDoFileHandler (W : Str) (fs : FS) (filePath : Str) (operation : Str)
    (params : EditParams) (ts : Str) : Str × FS :=
  match fsRead fs (resolvePath W filePath) with
  | none => (str "오류 발생: ENOENT", fs)
  | some cur =>
    match editStep W (fsWrite fs (backupPathOf W filePath ts) cur) filePath operation params with
    | .error m => (str "오류 발생: " ++ m, fsWrite fs (backupPathOf W filePath ts) cur)
    | .ok fs2 =>
      match fsRead fs2 (resolvePath W filePath) with
      | none => (str "오류 발생: ENOENT", fs2)
      | some updated =>
        (str "파일이 수정되었습니다.\n\n수정된 내용:\n" ++ List.replicate 80 '='
          ++ [nl] ++ updated, fs2)

/-- Claim C10: an `edit_do_file` call whose operation is none of the three
recognized ones still creates a backup, performs no edit, and answers
with the normal modified-file confirmation carrying the unchanged
content. -/
theorem c10_unknown_operation (W : Str) (fs : FS) (p op : Str)
    (params : EditParams) (ts cur : Str)
    (hread : fsRead fs (resolvePath W p) = some cur)
    (h1 : op ≠ str "add_variable") (h2 : op ≠ str "add_analysis")
    (h3 : op ≠ str "insert_section")
    (hbk : resolvePath W p ≠ backupPathOf W p ts) :
    editDoFileHandler W fs p op params ts
      = (str "파일이 수정되었습니다.\n\n수정된 내용:\n" ++ List.replicate 80 '='
          ++ [nl] ++ cur,
         fsWrite fs (backupPathOf W p ts) cur) := by
  have hstep : editStep W (fsWrite fs (backupPathOf W p ts) cur) p op params
      = .ok (fsWrite fs (backupPathOf W p ts) cur) := by
    unfold editStep
    rw [if_neg h1, if_neg h2, if_neg h3]
  have hread2 : fsRead (fsWrite fs (backupPathOf W p ts) cur) (resolvePath W p)
      = some cur := by
    rw [fsRead_fsWrite, if_neg hbk]
    exact hread
  simp only [editDoFileHandler, hread, hstep, hread2]

/-- Witness for claim C10: the operation string `noop` on an existing
one-line script. -/
theorem c10_witness :
    editDoFileHandler (str "/w")
        (fun q => if q = str "/w/a.do" then some (str "display 1") else none)
        (str "a.do") (str "noop") {} (str "T")
      = (str "파일이 수정되었습니다.\n\n수정된 내용:\n" ++ List.replicate 80 '='
          ++ [nl] ++ str "display 1",
         fsWrite (fun q => if q = str "/w/a.do" then some (str "display 1") else none)
           (backupPathOf (str "/w") (str "a.do") (str "T")) (str "display 1")) := by
  exact c10_unknown_operation (str "/w")
    (fun q => if q = str "/w/a.do" then some (str "display 1") else none)
    (str "a.do") (str "noop") {} (str "T") (str "display 1")
    (by rfl) (by decide) (by decide) (by decide) (by decide)

end StataMcp
